import Mathlib

/-!
# QA Assignment Tool — verification of the allocation engine

Shallow embedding of the allocation core of `src/app.py` (a Streamlit app
that assigns QA spreadsheet rows to team members).  Workers are strings,
items are spreadsheet row numbers (`Nat`), and the Python dicts keyed by
member name (`counts`, `assignments`, `member_limits`, `targets`,
`brand_to_member`) are modelled as functions out of `String`, together with
the list `active_members` that enumerates the dict keys.  Python's
nonnegative integers become `Nat`, its ints `Int`, and the float arithmetic
in `calculate_targets` and in the proportional-split quotas becomes exact
rational arithmetic (`ℚ`); every concrete input these theorems evaluate at
has been chosen so that the binary floating-point computation of the source
is exact and agrees with `ℚ`.  Spreadsheet I/O, header detection, charts
and the Streamlit UI are plumbing outside the embedded core; the cell
writes `qa_ws[...] = member` always mirror the `assignments` /
`backlog_rows` state, which is what the embedding tracks (the write-only
diagnostic accumulator `assigned_blocks` is omitted).
-/

/- The library marks the `Rat` field operations irreducible; the engine's
ratio and tolerance comparisons are rational, so they are unsealed to let
concrete runs evaluate inside proofs. -/
unseal Rat.mul Rat.add Rat.sub Rat.inv Rat.ofScientific

namespace QAPull

/-- Pointwise update of a dict modelled as a function (Python `d[k] = v`). -/
def updF (f : String → α) (k : String) (v : α) : String → α :=
  fun x => if x = k then v else f x

/-- `remaining_capacity` (src/app.py:43): `max(0, limits[m] - counts[m])`;
over `Nat` the truncated subtraction is exactly `max 0` of the difference. -/
def remaining_capacity (member : String) (limits counts : String → Nat) : Nat :=
  limits member - counts member

/-- `compute_loads_after_assignment` (src/app.py:47): copy the counts dict,
add `add` to `member_to_add`, return the dict values sorted descending.
The dict's keys are exactly `active` (one entry per active member). -/
def compute_loads_after_assignment (active : List String) (counts : String → Nat)
    (memberToAdd : String) (add : Nat) : List Nat :=
  let newCounts := updF counts memberToAdd (counts memberToAdd + add)
  List.insertionSort (fun a b => b ≤ a) (active.map newCounts)

/-- `top_and_second` (src/app.py:53). -/
def top_and_second : List Nat → Nat × Nat
  | [] => (0, 0)
  | [a] => (a, 0)
  | a :: b :: _ => (a, b)

/-- Python's `round` on an exact value: nearest integer, ties to even. -/
def pyRound (q : ℚ) : ℤ :=
  let f := ⌊q⌋
  let r := q - f
  if r < 1/2 then f
  else if 1/2 < r then f + 1
  else if Even f then f else f + 1

/-- The remainder-distribution loop of `calculate_targets` (src/app.py:84-90):
`while diff > 0 and i < len(members_by_slack) * 2`, giving `+1` to the member
at `i % len` whenever it is still below its limit.  The loop counter `i`
starts at 0 and increments once per pass, so `i < len * 2` is encoded
structurally by the remaining pass budget `fuel = len * 2 - i`. -/
def targetsAdjustLoop (limits : String → Nat) (bySlack : List String) :
    Nat → Nat → ℤ → (String → Nat) → (String → Nat)
  | 0, _, _, targets => targets
  | fuel + 1, i, diff, targets =>
    if 0 < diff then
      let m := bySlack.getD (i % bySlack.length) ""
      if targets m < limits m then
        targetsAdjustLoop limits bySlack fuel (i + 1) (diff - 1) (updF targets m (targets m + 1))
      else
        targetsAdjustLoop limits bySlack fuel (i + 1) diff targets
    else targets

/-- `calculate_targets` (src/app.py:61-92): proportional ideal per member,
rounded (`pyRound` models Python `round`), capped at the member's limit, then
the bounded remainder loop over members sorted by slack descending (Python's
stable `sorted(..., reverse=True)` is a stable descending sort). -/
def calculate_targets (active : List String) (limits : String → Nat) (total : Nat) :
    String → Nat :=
  let total_capacity := (active.map limits).sum
  if total_capacity = 0 then fun _ => 0
  else
    let targets0 : String → Nat := fun m =>
      let ideal := pyRound ((total : ℚ) * ((limits m : ℚ) / (total_capacity : ℚ)))
      min ideal.toNat (limits m)
    let assigned := (active.map targets0).sum
    let diff : ℤ := (total : ℤ) - (assigned : ℤ)
    let bySlack := List.insertionSort
      (fun a b => (limits b : ℤ) - (targets0 b : ℤ) ≤ (limits a : ℤ) - (targets0 a : ℤ)) active
    targetsAdjustLoop limits bySlack (bySlack.length * 2) 0 diff targets0

/-- `distance_from_target` (src/app.py:95): `targets[m] - counts[m]` as an int. -/
def distance_from_target (member : String) (counts targets : String → Nat) : ℤ :=
  (targets member : ℤ) - (counts member : ℤ)

/-- The engine's mutable allocation state (src/app.py:321-324): per-member
item counts, per-member assigned row lists, and the backlog row list.  The
`Assigned` cell writes always mirror this state, so the output map is read
off it. -/
structure St where
  counts : String → Nat
  assigns : String → List Nat
  backlog : List Nat

/-- The all-empty initial state (src/app.py:321-324). -/
def initSt : St where
  counts := fun _ => 0
  assigns := fun _ => []
  backlog := []

/-- How many times row `r` is resolved in the output: occurrences across all
members' assignment lists plus occurrences in the backlog. -/
def resolvedCount (active : List String) (st : St) (r : Nat) : Nat :=
  (active.map (fun m => (st.assigns m).count r)).sum + st.backlog.count r

/-- One pass of the `rebalance_assignments` `while` loop body
(src/app.py:105-136): find the members most over and most under target
(Python's `sort(key=lambda x: -x[1])` is a stable descending sort on the
imbalance); the pass stops the loop (`none`) when either side is empty, when
the count gap between the two is at most 1, or when the over-target member's
assignment list is empty; otherwise it `pop()`s the most recent row of the
over-target member, appends it to the under-target member, and yields the
updated `(assignments, counts)`. -/
def rebalanceStep (targets : String → Nat) (active : List String)
    (assigns : String → List Nat) (counts : String → Nat) :
    Option ((String → List Nat) × (String → Nat)) :=
  let over := (active.filter (fun m => targets m < counts m)).map
    (fun m => (m, counts m - targets m))
  let under := (active.filter (fun m => counts m < targets m)).map
    (fun m => (m, targets m - counts m))
  if over = [] ∨ under = [] then none
  else
    let overS := List.insertionSort (fun p q : String × Nat => q.2 ≤ p.2) over
    let underS := List.insertionSort (fun p q : String × Nat => q.2 ≤ p.2) under
    let fromM := (overS.headD ("", 0)).1
    let toM := (underS.headD ("", 0)).1
    if (counts fromM : ℤ) - (counts toM : ℤ) ≤ 1 then none
    else
      match (assigns fromM).getLast? with
      | none => none
      | some r =>
        let assigns1 := updF assigns fromM (assigns fromM).dropLast
        let assigns2 := updF assigns1 toM (assigns1 toM ++ [r])
        let counts1 := updF counts fromM (counts fromM - 1)
        let counts2 := updF counts1 toM (counts1 toM + 1)
        some (assigns2, counts2)

/-- The `rebalance_assignments` loop (src/app.py:100-138): run
`rebalanceStep` until it stops or the iteration budget (`max_iterations`
passes) runs out.  Every non-stopping pass makes exactly one move, so
`moves_made` counts the passes taken.  Returns the final
`(assignments, counts)` plus `moves_made`. -/
def rebalanceGo (targets : String → Nat) (active : List String) :
    Nat → (String → List Nat) → (String → Nat) →
    ((String → List Nat) × (String → Nat) × Nat)
  | 0, assigns, counts => (assigns, counts, 0)
  | fuel + 1, assigns, counts =>
    match rebalanceStep targets active assigns counts with
    | none => (assigns, counts, 0)
    | some (assigns2, counts2) =>
      let rec_ := rebalanceGo targets active fuel assigns2 counts2
      (rec_.1, rec_.2.1, rec_.2.2 + 1)

/-- `rebalance_assignments` with its default `max_iterations=1000`
(src/app.py:100). -/
def rebalance_assignments (targets : String → Nat) (active : List String)
    (assigns : String → List Nat) (counts : String → Nat) :
    (String → List Nat) × (String → Nat) × Nat :=
  rebalanceGo targets active 1000 assigns counts

/-- The inner `while attempts < len(active_members)` of Strict Even Split
(src/app.py:344-353): advance the member cycle up to `len(active)` times
looking for a member with remaining capacity; `pos` counts `next()` calls,
so the member examined is `active[pos % len]`.  Returns the member found
together with the cycle position after it, or `none` if a full lap found
every member at capacity. -/
def strictFind (limits counts : String → Nat) (active : List String) :
    Nat → Nat → Option (String × Nat)
  | _, 0 => none
  | pos, attempts + 1 =>
    let m := active.getD (pos % active.length) ""
    if 0 < remaining_capacity m limits counts then some (m, pos + 1)
    else strictFind limits counts active (pos + 1) attempts

/-- The Strict Even Split row loop (src/app.py:343-357): for each row in
block-flattening order, assign it to the next member in the capacity-aware
round-robin, or to Backlog when a full lap finds no capacity (the cycle then
having advanced one full lap). -/
def strictLoop (limits : String → Nat) (active : List String) :
    List Nat → Nat → St → St
  | [], _, st => st
  | r :: rest, pos, st =>
    match strictFind limits st.counts active pos active.length with
    | some (m, pos') =>
        strictLoop limits active rest pos'
          { st with counts := updF st.counts m (st.counts m + 1),
                    assigns := updF st.assigns m (st.assigns m ++ [r]) }
    | none =>
        strictLoop limits active rest (pos + active.length)
          { st with backlog := st.backlog ++ [r] }

/-- Strict Even Split mode (src/app.py:330-357): flatten the blocks into
`all_rows` in block order and run the round-robin loop from cycle start. -/
def run_strict (active : List String) (limits : String → Nat)
    (blocks : List (String × List Nat)) : St :=
  let all_rows := (blocks.map Prod.snd).flatten
  strictLoop limits active all_rows 0 initSt

/-- The imbalance test of Brand Priority mode (src/app.py:417-423): simulate
giving the candidate the whole block, take the two highest loads; with a
positive second load reject when `top > ratio * second`, and with a zero
second load reject exactly when the top load is positive (`top > 0 and
second == 0` under `second == 0`). -/
def would_imbalance (active : List String) (counts : String → Nat)
    (candidate : String) (blockSize : Nat) (ratio : ℚ) : Bool :=
  let loads := compute_loads_after_assignment active counts candidate blockSize
  let ts := top_and_second loads
  if ts.2 = 0 then decide (0 < ts.1) else decide (ratio * (ts.2 : ℚ) < (ts.1 : ℚ))

/-- Ascending lexicographic comparison of `(ℤ, ℤ)` sort keys, for Python's
`sorted(key=lambda m: (-remaining_capacity(m, ...), counts[m]))`. -/
def lexLe (p q : ℤ × ℤ) : Prop :=
  p.1 < q.1 ∨ (p.1 = q.1 ∧ p.2 ≤ q.2)

instance : DecidableRel lexLe := fun p q => by
  unfold lexLe; infer_instance

/-- The bounded remainder loop of the Brand Priority split (src/app.py:439-447):
`while remaining_to_assign > 0 and members_by_cap`, bumping the quota of the
member at `idx % len` when it is still below that member's remaining
capacity, and breaking once the post-increment `idx` exceeds
`block_size * 5`.  `idx` starts at 0 and increments once per pass, so the
body runs at most `block_size * 5 + 1` times and the structural `fuel`
(initialised to `block_size * 5 + 2` at the call site) never runs out:
the source's own break condition always fires first. -/
def brandRemainderLoop (remCaps : String → Nat) (byCap : List String)
    (blockSize : Nat) : Nat → Nat → Nat → (String → Nat) → (String → Nat)
  | 0, _, _, tentative => tentative
  | fuel + 1, idx, remaining, tentative =>
    if remaining = 0 ∨ byCap = [] then tentative
    else
      let m := byCap.getD (idx % byCap.length) ""
      let step :=
        if tentative m < remCaps m then (updF tentative m (tentative m + 1), remaining - 1)
        else (tentative, remaining)
      if blockSize * 5 < idx + 1 then step.1
      else brandRemainderLoop remCaps byCap blockSize fuel (idx + 1) step.2 step.1

/-- The interleaved round-robin placement shared by both balanced modes
(src/app.py:450-461 and 579-592): a deque of members with positive quota;
pop a member, hand it the next row, decrement its quota, and requeue it
while its quota stays positive.  Returns the updated assignment lists and
counts together with the rows left over when every quota is spent.  Each
pass drops a row or drops a spent member, so `rows.length + queue.length`
strictly decreases and the structural `fuel` (initialised to
`rows.length + queue.length + 1` in `runInterleave`) never runs out. -/
def interleaveAssign : Nat → List String → (String → Nat) → List Nat →
    (String → List Nat) → (String → Nat) →
    ((String → List Nat) × (String → Nat) × List Nat)
  | 0, _, _, rows, assigns, counts => (assigns, counts, rows)
  | _ + 1, [], _, rows, assigns, counts => (assigns, counts, rows)
  | _ + 1, _ :: _, _, [], assigns, counts => (assigns, counts, [])
  | fuel + 1, m :: queue, quotas, r :: rest, assigns, counts =>
    if quotas m = 0 then interleaveAssign fuel queue quotas (r :: rest) assigns counts
    else
      let assigns' := updF assigns m (assigns m ++ [r])
      let counts' := updF counts m (counts m + 1)
      let quotas' := updF quotas m (quotas m - 1)
      let queue' := if 0 < quotas' m then queue ++ [m] else queue
      interleaveAssign fuel queue' quotas' rest assigns' counts'

/-- `interleaveAssign` started with enough fuel for its worst case. -/
def runInterleave (queue : List String) (quotas : String → Nat) (rows : List Nat)
    (assigns : String → List Nat) (counts : String → Nat) :
    (String → List Nat) × (String → Nat) × List Nat :=
  interleaveAssign (rows.length + queue.length + 1) queue quotas rows assigns counts

/-- The body of one Brand Priority iteration for a block whose brand has no
active pre-assigned member (src/app.py:398-470): small blocks go whole to
the eligible member with the most remaining capacity (ties: fewest items) or
else to Backlog; large blocks go whole to the first member able to take them
unless the imbalance test fires, in which case they are split proportionally
to remaining capacity and assigned interleaved, the leftover going to
Backlog. -/
def brandStepBody (active : List String) (limits : String → Nat)
    (threshold : Nat) (ratio : ℚ) (rows : List Nat)
    (queue : List (String × List Nat)) (st : St) :
    List (String × List Nat) × St :=
  let n := rows.length
  if n < threshold then
    let cands := active.filter (fun m => n ≤ remaining_capacity m limits st.counts)
    if cands = [] then
      (queue, { st with backlog := st.backlog ++ rows })
    else
      let key : String → ℤ × ℤ := fun m =>
        (-(remaining_capacity m limits st.counts : ℤ), (st.counts m : ℤ))
      let sorted := List.insertionSort (fun a b => lexLe (key a) (key b)) cands
      let best := sorted.headD ""
      (queue, { st with assigns := updF st.assigns best (st.assigns best ++ rows),
                        counts := updF st.counts best (st.counts best + n) })
  else
    let cands := active.filter (fun m => n ≤ remaining_capacity m limits st.counts)
    let bestCandidate := cands.head?
    let wouldImb := match bestCandidate with
      | some c => would_imbalance active st.counts c n ratio
      | none => false
    match bestCandidate, wouldImb with
    | some best, false =>
      (queue, { st with assigns := updF st.assigns best (st.assigns best ++ rows),
                        counts := updF st.counts best (st.counts best + n) })
    | _, _ =>
      let eligible := active.filter (fun m => 0 < remaining_capacity m limits st.counts)
      let remCaps : String → Nat := fun m => remaining_capacity m limits st.counts
      let total := (eligible.map remCaps).sum
      if total = 0 then
        (queue, { st with backlog := st.backlog ++ rows })
      else
        let tentative0 : String → Nat := fun m =>
          (⌊(remCaps m : ℚ) / (total : ℚ) * (n : ℚ)⌋).toNat
        let assignedSum := (eligible.map tentative0).sum
        let remaining := n - assignedSum
        let byCap := List.insertionSort (fun a b => remCaps b ≤ remCaps a) eligible
        let quotas := brandRemainderLoop remCaps byCap n (n * 5 + 2) 0 remaining tentative0
        let memberQueue := eligible.filter (fun m => 0 < quotas m)
        let res := runInterleave memberQueue quotas rows st.assigns st.counts
        (queue, { counts := res.2.1, assigns := res.1, backlog := st.backlog ++ res.2.2 })

/-- One iteration of the Brand Priority `while blocks_queue` loop
(src/app.py:367-470) on the popped head block: empty blocks are skipped; a
block whose brand is pre-assigned to an active member goes to that member up
to remaining hard capacity, the overflow being pushed back onto the front of
the queue as a smaller block of the same brand; otherwise `brandStepBody`
runs. -/
def brandStep (b2m : String → Option String) (active : List String)
    (limits : String → Nat) (threshold : Nat) (ratio : ℚ)
    (blk : String × List Nat) (queue : List (String × List Nat)) (st : St) :
    List (String × List Nat) × St :=
  let brand := blk.1
  let rows := blk.2
  let n := rows.length
  if n = 0 then (queue, st)
  else
    match b2m brand with
    | some p =>
      if p ∈ active then
        let cap := remaining_capacity p limits st.counts
        if n ≤ cap then
          (queue, { st with assigns := updF st.assigns p (st.assigns p ++ rows),
                            counts := updF st.counts p (st.counts p + rows.length) })
        else
          let take := min cap n
          let st' :=
            if 0 < take then
              { st with assigns := updF st.assigns p (st.assigns p ++ rows.take take),
                        counts := updF st.counts p (st.counts p + take) }
            else st
          let remaining := rows.drop take
          (if remaining ≠ [] then (brand, remaining) :: queue else queue, st')
      else brandStepBody active limits threshold ratio rows queue st
    | none => brandStepBody active limits threshold ratio rows queue st

/-- The Brand Priority driver loop (src/app.py:363-367): pop and process
blocks while the queue is nonempty and the iteration budget lasts. -/
def brandLoop (b2m : String → Option String) (active : List String)
    (limits : String → Nat) (threshold : Nat) (ratio : ℚ) :
    Nat → List (String × List Nat) → St → St
  | 0, _, st => st
  | _ + 1, [], st => st
  | fuel + 1, blk :: queue, st =>
    let step := brandStep b2m active limits threshold ratio blk queue st
    brandLoop b2m active limits threshold ratio fuel step.1 step.2

/-- Balanced (Brand Priority) mode (src/app.py:362-470) with its
`max_iterations = 20000`. -/
def run_brand (b2m : String → Option String) (active : List String)
    (limits : String → Nat) (threshold : Nat) (ratio : ℚ)
    (blocks : List (String × List Nat)) : St :=
  brandLoop b2m active limits threshold ratio 20000 blocks initSt

/-- The bounded remainder loop of the Even Priority split (src/app.py:569-576):
`while remainder > 0 and idx < len(members_by_distance) * 3`, bumping the
share of the member at `idx % len` when it is still below that member's
remaining capacity.  `idx` starts at 0 and increments once per pass, so
`idx < len * 3` is encoded structurally by the remaining pass budget
`fuel = len * 3 - idx`. -/
def evenRemainderLoop (remCaps : String → Nat) (byDist : List String) :
    Nat → Nat → Nat → (String → Nat) → (String → Nat)
  | 0, _, _, shares => shares
  | fuel + 1, idx, remainder, shares =>
    if 0 < remainder then
      let m := byDist.getD (idx % byDist.length) ""
      if shares m < remCaps m then
        evenRemainderLoop remCaps byDist fuel (idx + 1) (remainder - 1)
          (updF shares m (shares m + 1))
      else
        evenRemainderLoop remCaps byDist fuel (idx + 1) remainder shares
    else shares

/-- The proportional split of Even Priority mode (src/app.py:555-597), run
with either the distance weights or (when everyone is at/over target) the
remaining capacities as `distances`: shares are `min(floor(block * prop),
remaining capacity)`, the remainder goes preferentially to members furthest
by weight, and the rows are assigned interleaved, the leftover to Backlog. -/
def evenSplit (limits : String → Nat) (elig : List String)
    (distances : String → Nat) (totalDistance : Nat) (rows : List Nat)
    (queue : List (String × List Nat)) (st : St) :
    List (String × List Nat) × St :=
  let n := rows.length
  let shares0 : String → Nat := fun m =>
    let proportion : ℚ := if 0 < totalDistance then (distances m : ℚ) / (totalDistance : ℚ) else 0
    min (⌊(n : ℚ) * proportion⌋).toNat (remaining_capacity m limits st.counts)
  let assignedSoFar := (elig.map shares0).sum
  let remainder := n - assignedSoFar
  let byDist := List.insertionSort (fun a b => distances b ≤ distances a) elig
  let remCaps : String → Nat := fun m => remaining_capacity m limits st.counts
  let shares := evenRemainderLoop remCaps byDist (byDist.length * 3) 0 remainder shares0
  let memberQueue := elig.filter (fun m => 0 < shares m)
  let res := runInterleave memberQueue shares rows st.assigns st.counts
  (queue, { counts := res.2.1, assigns := res.1, backlog := st.backlog ++ res.2.2 })

/-- One iteration of the Even Priority `while blocks_queue` loop
(src/app.py:480-597) on the popped head block: empty blocks are skipped;
pre-assigned blocks go to their member up to remaining hard capacity with
the overflow pushed back to the front of the queue; otherwise members with
remaining capacity are sorted by distance from target (descending, stable)
and the whole block goes to the first one when that stays within the target
tolerance and capacity, else the block is split (`evenSplit`) by positive
distances, falling back to remaining capacities when everyone is at or over
target, and to Backlog when no capacity remains. -/
def evenStep (b2m : String → Option String) (active : List String)
    (limits targets : String → Nat) (tolerance : ℚ)
    (blk : String × List Nat) (queue : List (String × List Nat)) (st : St) :
    List (String × List Nat) × St :=
  let brand := blk.1
  let rows := blk.2
  let n := rows.length
  if n = 0 then (queue, st)
  else
    let body : List (String × List Nat) × St :=
      let eligible := active.filter (fun m => 0 < remaining_capacity m limits st.counts)
      if eligible = [] then
        (queue, { st with backlog := st.backlog ++ rows })
      else
        let elig := List.insertionSort
          (fun a b => distance_from_target b st.counts targets ≤
                      distance_from_target a st.counts targets) eligible
        let best := elig.headD ""
        let cap := remaining_capacity best limits st.counts
        let thr : ℚ := (targets best : ℚ) * (1 + tolerance)
        let projected := st.counts best + n
        if (projected : ℚ) ≤ thr ∧ n ≤ cap then
          (queue, { st with assigns := updF st.assigns best (st.assigns best ++ rows),
                            counts := updF st.counts best (st.counts best + n) })
        else
          let distances : String → Nat := fun m =>
            (distance_from_target m st.counts targets).toNat
          let totalDistance := (elig.map distances).sum
          if totalDistance = 0 then
            let remCaps : String → Nat := fun m => remaining_capacity m limits st.counts
            let totalCap := (elig.map remCaps).sum
            if totalCap = 0 then
              (queue, { st with backlog := st.backlog ++ rows })
            else evenSplit limits elig remCaps totalCap rows queue st
          else evenSplit limits elig distances totalDistance rows queue st
    match b2m brand with
    | some p =>
      if p ∈ active then
        let cap := remaining_capacity p limits st.counts
        if n ≤ cap then
          (queue, { st with assigns := updF st.assigns p (st.assigns p ++ rows),
                            counts := updF st.counts p (st.counts p + rows.length) })
        else
          let take := min cap n
          let st' :=
            if 0 < take then
              { st with assigns := updF st.assigns p (st.assigns p ++ rows.take take),
                        counts := updF st.counts p (st.counts p + take) }
            else st
          let remaining := rows.drop take
          (if remaining ≠ [] then (brand, remaining) :: queue else queue, st')
      else body
    | none => body

/-- The Even Priority driver loop (src/app.py:476-480). -/
def evenLoop (b2m : String → Option String) (active : List String)
    (limits targets : String → Nat) (tolerance : ℚ) :
    Nat → List (String × List Nat) → St → St
  | 0, _, st => st
  | _ + 1, [], st => st
  | fuel + 1, blk :: queue, st =>
    let step := evenStep b2m active limits targets tolerance blk queue st
    evenLoop b2m active limits targets tolerance fuel step.1 step.2

/-- Balanced (Even Priority) mode (src/app.py:475-603) with its
`max_iterations = 20000`, followed by `rebalance_assignments` when
post-rebalancing is enabled (src/app.py:599-601).  Returns the final state
and the number of rebalancing moves. -/
def run_even (b2m : String → Option String) (active : List String)
    (limits targets : String → Nat) (tolerance : ℚ) (rebalanceEnabled : Bool)
    (blocks : List (String × List Nat)) : St × Nat :=
  let st := evenLoop b2m active limits targets tolerance 20000 blocks initSt
  if rebalanceEnabled then
    let res := rebalance_assignments targets active st.assigns st.counts
    ({ assigns := res.1, counts := res.2.1, backlog := st.backlog }, res.2.2)
  else (st, 0)

/-- One parsed QA-sheet row (src/app.py:276-287): its spreadsheet row
number, whether `Pim Parent ID` is present and non-blank, the title-cased
brand (`none` for a missing or blank brand cell), and the `Bt Image Date`
as an orderable key (`none` when the cell does not hold a datetime). -/
structure QARow where
  row : Nat
  pim : Bool
  brand : Option String
  date : Option Nat

/-- First-occurrence order of the brands, mirroring `row_brand_order`
(src/app.py:284-287): a brand enters the order the first time it is seen. -/
def firstOccurrences (seen : List String) : List String → List String
  | [] => []
  | b :: rest =>
    if b ∈ seen then firstOccurrences seen rest
    else b :: firstOccurrences (seen ++ [b]) rest

/-- The backlog-mode sort key of a row (src/app.py:292-297): its date when
present, else `datetime.max` — modelled as ascending lexicographic pairs
with all missing dates tied above every real date. -/
def dateKey (qaRows : List QARow) (r : Nat) : ℤ × ℤ :=
  match ((qaRows.find? (fun it => it.row = r)).bind QARow.date) with
  | some d => (0, (d : ℤ))
  | none => (1, 0)

/-- The block builder (src/app.py:271-305): keep rows with a non-blank
`Pim Parent ID`, group the branded ones by brand in first-occurrence order
(rows with no brand join no block), in backlog mode sort each block's rows
by date (missing dates last, Python's stable sort), and finally sort the
blocks by size descending (stable). -/
def buildBlocks (qaRows : List QARow) (backlogMode : Bool) :
    List (String × List Nat) :=
  let items := qaRows.filter (fun it => it.pim)
  let branded := items.filterMap (fun it => it.brand.map (fun b => (b, it.row)))
  let brandOrder := firstOccurrences [] (branded.map Prod.fst)
  let rowsOf : String → List Nat := fun b =>
    (branded.filter (fun p => p.1 = b)).map Prod.snd
  let sortRows : List Nat → List Nat := fun rs =>
    if backlogMode then
      List.insertionSort (fun a b => lexLe (dateKey qaRows a) (dateKey qaRows b)) rs
    else rs
  let blocks0 := brandOrder.map (fun b => (b, sortRows (rowsOf b)))
  List.insertionSort (fun x y : String × List Nat => y.2.length ≤ x.2.length) blocks0

/-- The three distribution modes offered by the UI (src/app.py:205-214). -/
inductive Mode
  | strictEvenSplit
  | balancedBrandPriority
  | balancedEvenPriority

/-- The whole allocation pipeline after input parsing (src/app.py:271-603):
build the blocks, compute the targets, and run the selected distribution
mode.  `threshold` is `SPLIT_SIZE_THRESHOLD`, `ratio` is `IMBALANCE_RATIO`,
`tolerance` is `TARGET_TOLERANCE` and `rebalanceEnabled` is
`REBALANCE_ENABLED` (src/app.py:220-231). -/
def runPipeline (mode : Mode) (backlogMode : Bool) (threshold : Nat)
    (ratio tolerance : ℚ) (rebalanceEnabled : Bool) (qaRows : List QARow)
    (active : List String) (limits : String → Nat)
    (b2m : String → Option String) : St :=
  let blocks := buildBlocks qaRows backlogMode
  let total := (blocks.map (fun x => x.2.length)).sum
  let targets := calculate_targets active limits total
  match mode with
  | .strictEvenSplit => run_strict active limits blocks
  | .balancedBrandPriority => run_brand b2m active limits threshold ratio blocks
  | .balancedEvenPriority =>
      (run_even b2m active limits targets tolerance rebalanceEnabled blocks).1

/-! ### Specification-side definitions

Written from the spec's words, to be compared against the code-side
definitions above. -/

/-- The counts dict after simulating the assignment of `blockSize` items to
`candidate` (the body of `compute_loads_after_assignment`, shared by the
spec-side and code-side readings). -/
def simulatedCounts (counts : String → Nat) (candidate : String) (blockSize : Nat) :
    String → Nat :=
  updF counts candidate (counts candidate + blockSize)

/-- Spec-side reading of "the highest resulting load value": the maximum of
the load list. -/
def specTop (loads : List Nat) : Nat := loads.foldr max 0

/-- Spec-side reading of "the second-highest resulting load value": the
maximum after removing one occurrence of the highest. -/
def specSecond (loads : List Nat) : Nat := (loads.erase (specTop loads)).foldr max 0

/-- Spec-side reading of the whole-placement rejection rule of C6: simulate
the assignment; reject when the highest load exceeds `ratio` times the
second-highest, or when the placement would make the candidate the sole
worker with a nonzero load. -/
def spec_reject_whole (active : List String) (counts : String → Nat)
    (candidate : String) (blockSize : Nat) (ratio : ℚ) : Prop :=
  let newCounts := simulatedCounts counts candidate blockSize
  let loads := active.map newCounts
  (ratio * (specSecond loads : ℚ) < (specTop loads : ℚ)) ∨
  (newCounts candidate ≠ 0 ∧ ∀ m ∈ active, m ≠ candidate → newCounts m = 0)

/-- Modelled from the spec: the variant of the program in `src/app.py` has no
priority-override handling at all (no priority flag is read from the QA
sheet); the spec describes it, so the eligibility rule is taken from the
spec's words: a worker is eligible iff `assignedCount(worker) <
capacity(worker)`. -/
def eligible_members (active : List String) (limits counts : String → Nat) :
    List String :=
  active.filter (fun m => counts m < limits m)

/-- Modelled from the spec: priority-override placement, absent from
`src/app.py`.  Each priority item goes to the eligible worker with the
fewest current items, ties broken by the fixed worker order (the first such
worker in `active`); `none` means the item goes to Backlog.  The function is
total: when no worker is eligible it returns `none` rather than failing. -/
def place_priority_item (active : List String) (limits counts : String → Nat) :
    Option String :=
  match eligible_members active limits counts with
  | [] => none
  | e :: es => some (es.foldl (fun best m => if counts m < counts best then m else best) e)

/-- Modelled from the spec: place every priority-override item individually,
before any block processing, threading the engine state. -/
def place_priority_items (active : List String) (limits : String → Nat) :
    List Nat → St → St
  | [], st => st
  | r :: rest, st =>
    match place_priority_item active limits st.counts with
    | some w =>
        place_priority_items active limits rest
          { st with counts := updF st.counts w (st.counts w + 1),
                    assigns := updF st.assigns w (st.assigns w ++ [r]) }
    | none =>
        place_priority_items active limits rest { st with backlog := st.backlog ++ [r] }

/-! ### Concrete inputs used by the counterexample and bug-witness runs -/

/-- An empty `Assignments` sheet: no brand is pre-assigned. -/
def noPreassign : String → Option String := fun _ => none

/-- An `Assignments` sheet pre-assigning brand `"X"` to member `"A"`. -/
def preassignXA : String → Option String := fun b => if b = "X" then some "A" else none

/-- Member limits `A:1, B:1` (input string `A:1, B:1`). -/
def limits_A1B1 : String → Nat := fun m => if m = "A" then 1 else if m = "B" then 1 else 0

/-- Member limits `A:10, B:10`. -/
def limits_A10B10 : String → Nat := fun m => if m = "A" then 10 else if m = "B" then 10 else 0

/-- Member limits `A:12, B:4`. -/
def limits_A12B4 : String → Nat := fun m => if m = "A" then 12 else if m = "B" then 4 else 0

/-- Member limits `A:0`: member `A` is active with an explicit limit of 0. -/
def limits_A0 : String → Nat := fun _ => 0

/-- Member limits `A:2`. -/
def limits_A2 : String → Nat := fun _ => 2

/-- Concrete counts for the C9 witness: `A` is at its limit, `B` is free. -/
def cnt9 : String → Nat := fun m => if m = "A" then 1 else 0

/-- Concrete rebalancing input for the C8 witness: `A` is one over a target
of 1 with rows `[7, 8]`, `B` is one under. -/
def tgtW : String → Nat := fun _ => 1

/-- Concrete counts for the C8 witness. -/
def cntW : String → Nat := fun m => if m = "A" then 2 else 0

/-- Concrete assignment lists for the C8 witness. -/
def asgW : String → List Nat := fun m => if m = "A" then [7, 8] else []

instance : IsTotal Nat (fun a b => b ≤ a) := ⟨fun a b => le_total b a⟩

instance : IsTrans Nat (fun a b => b ≤ a) := ⟨fun _ _ _ h1 h2 => le_trans h2 h1⟩

/-! ## Theorems -/

@[simp] theorem updF_same (f : String → α) (k : String) (v : α) : updF f k v k = v := by
  simp [updF]

@[simp] theorem updF_other (f : String → α) {k x : String} (v : α) (h : x ≠ k) :
    updF f k v x = f x := by
  simp [updF, h]

/-- C2: the claim "every worker's final assigned count is at most that
worker's capacity limit, in every distribution mode" fails on the code: in
Balanced (Brand Priority) mode, with members `A:1, B:1` and a single brand
block of 10 rows (split size threshold 5), the split path computes quotas
`floor(remaining/total * size) = 5` per member without capping them at
remaining capacity, and worker `A` ends with 5 assigned items against a
limit of 1. -/
theorem c2_brand_split_violates_capacity :
    (run_brand noPreassign ["A", "B"] limits_A1B1 5 (13/10)
        [("X", [2, 3, 4, 5, 6, 7, 8, 9, 10, 11])]).counts "A" = 5 ∧
    limits_A1B1 "A" = 1 ∧
    ¬ (run_brand noPreassign ["A", "B"] limits_A1B1 5 (13/10)
        [("X", [2, 3, 4, 5, 6, 7, 8, 9, 10, 11])]).counts "A" ≤ limits_A1B1 "A" := by
  decide

/-- C3: the claim "sum of all targets equals min(totalItems, sum of
capacities)" fails on the code: with members `A:10, B:10` and 15 total
items, `round(15 * 0.5)` rounds half-to-even to 8 for both members, the
overshoot `diff = -1` is never corrected (the adjustment loop only handles
`diff > 0`), and the targets sum to 16 ≠ min(15, 20) = 15, contradicting the
source's own comment "Adjust to ensure we hit total exactly". -/
theorem c3_targets_do_not_sum_to_min :
    calculate_targets ["A", "B"] limits_A10B10 15 "A" = 8 ∧
    calculate_targets ["A", "B"] limits_A10B10 15 "B" = 8 ∧
    calculate_targets ["A", "B"] limits_A10B10 15 "A"
        + calculate_targets ["A", "B"] limits_A10B10 15 "B"
      ≠ min 15 (limits_A10B10 "A" + limits_A10B10 "B") := by
  decide

/-- C5: the claim "if sum(capacities) < totalItems then exactly
totalItems - sum(capacities) items end in Backlog, in each distribution
mode" fails on the code: the same Brand Priority run as C2 (10 items, total
capacity 2) assigns every item — quotas beyond capacity — and backlogs 0
items instead of 8. -/
theorem c5_brand_split_wrong_backlog_count :
    limits_A1B1 "A" + limits_A1B1 "B" < 10 ∧
    (run_brand noPreassign ["A", "B"] limits_A1B1 5 (13/10)
        [("X", [2, 3, 4, 5, 6, 7, 8, 9, 10, 11])]).backlog.length = 0 ∧
    (run_brand noPreassign ["A", "B"] limits_A1B1 5 (13/10)
        [("X", [2, 3, 4, 5, 6, 7, 8, 9, 10, 11])]).backlog.length
      ≠ 10 - (limits_A1B1 "A" + limits_A1B1 "B") := by
  decide

/-- C10: in Strict Even Split mode the brand → worker pre-assignment map has
no effect on the output: two pipeline runs on the same QA rows, active
members and limits that differ only in the pre-assignment map produce the
same final state (the strict branch never consults the map). -/
theorem c10_strict_mode_ignores_preassignments (backlogMode : Bool)
    (threshold : Nat) (ratio tolerance : ℚ) (rebalanceEnabled : Bool)
    (qaRows : List QARow) (active : List String) (limits : String → Nat)
    (b2mFst b2mSnd : String → Option String) :
    runPipeline Mode.strictEvenSplit backlogMode threshold ratio tolerance
        rebalanceEnabled qaRows active limits b2mFst =
    runPipeline Mode.strictEvenSplit backlogMode threshold ratio tolerance
        rebalanceEnabled qaRows active limits b2mSnd := rfl

/-- With brand `"X"` pre-assigned to the active member `"A"` whose limit is
0, one Brand Priority step takes nothing (`take = min 0 1 = 0`) and pushes
the untouched block back onto the front of the queue: the state never
changes, however much fuel the loop burns. -/
theorem brandLoop_stuck_on_zero_capacity_preassignment (fuel : Nat) (st : St) :
    brandLoop preassignXA ["A"] limits_A0 50 (13/10) fuel [("X", [2])] st = st := by
  induction fuel with
  | zero => rfl
  | succ n ih =>
    have hstep : brandStep preassignXA ["A"] limits_A0 50 (13/10) ("X", [2]) [] st
        = ([("X", [2])], st) := by
      simp [brandStep, preassignXA, remaining_capacity, limits_A0]
    rw [brandLoop, hstep]
    exact ih

/-- C1: the claim "every item appears exactly once in the output map, in
every distribution mode and for every input, including inputs where a
pre-assigned worker's remaining capacity is zero while their brand's block
is still queued" fails on the code: with active member `A:0`, brand `"X"`
pre-assigned to `A`, and one QA row (row 2) of brand `"X"`, the Brand
Priority loop re-queues the block forever, exhausts its 20000 iterations and
returns with the row neither assigned to any member nor backlogged — it
appears zero times in the output. -/
theorem c1_zero_capacity_preassignment_drops_item :
    resolvedCount ["A"]
      (run_brand preassignXA ["A"] limits_A0 50 (13/10) [("X", [2])]) 2 = 0 := by
  show resolvedCount ["A"]
      (brandLoop preassignXA ["A"] limits_A0 50 (13/10) 20000 [("X", [2])] initSt) 2 = 0
  rw [brandLoop_stuck_on_zero_capacity_preassignment]
  rfl

/-- C4: for a block whose brand is pre-assigned to an active worker, both
balanced modes place it bounded by the worker's remaining hard capacity and
not by any balance target (the Even Priority step coincides with the Brand
Priority step there, for every `targets` and `tolerance`): the whole block
goes to the pre-assigned worker whenever remaining capacity covers it, and
otherwise the first `cap` rows go to the worker while the overflow is pushed
back onto the block queue as a new smaller block with the same brand and the
original row order. -/
theorem c4_preassignment_is_capacity_bound
    (b2m : String → Option String) (active : List String)
    (limits targets : String → Nat) (threshold : Nat) (ratio tolerance : ℚ)
    (brand p : String) (rows : List Nat) (queue : List (String × List Nat))
    (st : St) (hrows : rows ≠ []) (hb : b2m brand = some p) (hact : p ∈ active) :
    (evenStep b2m active limits targets tolerance (brand, rows) queue st =
       brandStep b2m active limits threshold ratio (brand, rows) queue st) ∧
    (rows.length ≤ remaining_capacity p limits st.counts →
       brandStep b2m active limits threshold ratio (brand, rows) queue st =
         (queue, { st with assigns := updF st.assigns p (st.assigns p ++ rows),
                           counts := updF st.counts p (st.counts p + rows.length) })) ∧
    (remaining_capacity p limits st.counts < rows.length →
       brandStep b2m active limits threshold ratio (brand, rows) queue st =
         ((brand, rows.drop (remaining_capacity p limits st.counts)) :: queue,
          if 0 < remaining_capacity p limits st.counts then
            { st with
                assigns := updF st.assigns p
                  (st.assigns p ++ rows.take (remaining_capacity p limits st.counts)),
                counts := updF st.counts p
                  (st.counts p + remaining_capacity p limits st.counts) }
          else st)) := by
  have hn : rows.length ≠ 0 := by simpa using hrows
  refine ⟨?_, ?_, ?_⟩
  · unfold brandStep evenStep
    simp only [hb, if_pos hact]
  · intro hle
    unfold brandStep
    simp only [hb, if_pos hact, if_neg hn, if_pos hle]
  · intro hlt
    have hnle : ¬ rows.length ≤ remaining_capacity p limits st.counts := by omega
    have hmin : min (remaining_capacity p limits st.counts) rows.length
        = remaining_capacity p limits st.counts := Nat.min_eq_left (Nat.le_of_lt hlt)
    have hdrop : rows.drop (remaining_capacity p limits st.counts) ≠ [] := by
      intro hcon
      have := List.drop_eq_nil_iff.mp hcon
      omega
    unfold brandStep
    simp only [hb, if_pos hact, if_neg hn, if_neg hnle, hmin, if_pos hdrop]

/-- Witness for C4: brand `"X"` pre-assigned to `"A"` (limit 2), block of
three rows: the first two rows go to `A` and the overflow row is re-queued
as a block of brand `"X"`. -/
theorem c4_preassignment_is_capacity_bound_witness :
    ([5, 6, 7] : List Nat) ≠ [] ∧ preassignXA "X" = some "A" ∧ "A" ∈ ["A"] ∧
    brandStep preassignXA ["A"] limits_A2 50 (13/10) ("X", [5, 6, 7]) [] initSt =
      ([("X", [7])],
       { initSt with
           assigns := updF initSt.assigns "A" (initSt.assigns "A" ++ [5, 6]),
           counts := updF initSt.counts "A" (initSt.counts "A" + 2) }) := by
  refine ⟨by decide, by rfl, by decide, ?_⟩
  have h := (c4_preassignment_is_capacity_bound preassignXA ["A"] limits_A2
      (fun _ => 0) 50 (13/10) (1/10) "X" "A" [5, 6, 7] [] initSt
      (by decide) (by rfl) (by decide)).2.2 (by decide)
  rw [h]
  rfl

/-- C7: the claim "after rebalancing, every pair of non-backlogged workers
has assigned counts within 1 of each other, or one of them is
capacity-constrained below the even share" fails on the code: with members
`A:12, B:4` and 8 items in one brand, the targets are proportional to the
limits (`A:6, B:2`), the Even Priority run ends at exactly those targets, the
rebalancer stops immediately (0 moves), and the final gap is `6 - 2 = 4 > 1`
even though both workers hold items and both capacities (12 and 4) are at
least the even share `8 / 2 = 4`. -/
theorem c7_rebalanced_run_keeps_gap_above_one :
    (run_even noPreassign ["A", "B"] limits_A12B4
        (calculate_targets ["A", "B"] limits_A12B4 8) (1/10) true
        [("X", [2, 3, 4, 5, 6, 7, 8, 9])]).1.counts "A" = 6 ∧
    (run_even noPreassign ["A", "B"] limits_A12B4
        (calculate_targets ["A", "B"] limits_A12B4 8) (1/10) true
        [("X", [2, 3, 4, 5, 6, 7, 8, 9])]).1.counts "B" = 2 ∧
    (run_even noPreassign ["A", "B"] limits_A12B4
        (calculate_targets ["A", "B"] limits_A12B4 8) (1/10) true
        [("X", [2, 3, 4, 5, 6, 7, 8, 9])]).2 = 0 ∧
    (run_even noPreassign ["A", "B"] limits_A12B4
        (calculate_targets ["A", "B"] limits_A12B4 8) (1/10) true
        [("X", [2, 3, 4, 5, 6, 7, 8, 9])]).1.assigns "A" ≠ [] ∧
    (run_even noPreassign ["A", "B"] limits_A12B4
        (calculate_targets ["A", "B"] limits_A12B4 8) (1/10) true
        [("X", [2, 3, 4, 5, 6, 7, 8, 9])]).1.assigns "B" ≠ [] ∧
    ¬ ((6 - 2 : Nat) ≤ 1 ∨ limits_A12B4 "A" < 8 / 2 ∨ limits_A12B4 "B" < 8 / 2) := by
  decide

/-- The rebalancing loop either spends its whole iteration budget (one move
per pass) or ends in a state its own loop body stops on. -/
theorem rebalanceGo_stops (targets : String → Nat) (active : List String) :
    ∀ (fuel : Nat) (assigns : String → List Nat) (counts : String → Nat),
    (rebalanceGo targets active fuel assigns counts).2.2 = fuel ∨
    rebalanceStep targets active (rebalanceGo targets active fuel assigns counts).1
      (rebalanceGo targets active fuel assigns counts).2.1 = none := by
  intro fuel
  induction fuel with
  | zero => intro assigns counts; exact Or.inl rfl
  | succ n ih =>
    intro assigns counts
    rw [rebalanceGo]
    cases h : rebalanceStep targets active assigns counts with
    | none => exact Or.inr h
    | some p =>
      rcases ih p.1 p.2 with h1 | h2
      · exact Or.inl (by simp [h1])
      · exact Or.inr (by simpa using h2)

/-- C7 (amended): the pairwise even-share bound does not hold because the
targets are proportional to the members' limits rather than an even share;
what the code guarantees is target-relative: `rebalance_assignments` either
hits its 1000-iteration cap or returns a state on which its own loop body
stops — no member is over target, or none is under target, or the count gap
between the most over-target and most under-target members is at most 1, or
the most over-target member's assignment list is empty (`rebalanceStep`
returns `none` exactly in those cases). -/
theorem c7_rebalancer_stops_at_gap_one_or_cap (targets : String → Nat)
    (active : List String) (assigns : String → List Nat) (counts : String → Nat) :
    (rebalance_assignments targets active assigns counts).2.2 = 1000 ∨
    rebalanceStep targets active
      (rebalance_assignments targets active assigns counts).1
      (rebalance_assignments targets active assigns counts).2.1 = none :=
  rebalanceGo_stops targets active 1000 assigns counts

/-- The default-valued head of a nonempty list is an element of it. -/
theorem headD_mem_of_ne_nil {α : Type} {l : List α} (d : α) (h : l ≠ []) :
    l.headD d ∈ l := by
  cases l with
  | nil => exact absurd rfl h
  | cons a t => exact List.mem_cons_self a t

/-- Updating a key outside the mapped list leaves the mapped list unchanged. -/
theorem map_updF_of_not_mem (l : List String) (f : String → Nat) (k : String)
    (v : Nat) (hk : k ∉ l) : l.map (updF f k v) = l.map f := by
  apply List.map_congr_left
  intro x hx
  exact updF_other f v (fun hxk => hk (hxk ▸ hx))

/-- Sum over distinct keys after a single dict update: the update swaps the
old value at `k` for `v`. -/
theorem sum_map_updF (l : List String) (f : String → Nat) (k : String) (v : Nat)
    (hnd : l.Nodup) (hk : k ∈ l) :
    (l.map (updF f k v)).sum + f k = (l.map f).sum + v := by
  induction l with
  | nil => cases hk
  | cons a t ih =>
    rw [List.nodup_cons] at hnd
    rcases List.mem_cons.mp hk with hak | hkt
    · subst hak
      have ht : t.map (updF f k v) = t.map f := map_updF_of_not_mem t f k v hnd.1
      simp only [List.map_cons, List.sum_cons, ht, updF_same]
      omega
    · have hka : a ≠ k := fun h => hnd.1 (h ▸ hkt)
      have ha : updF f k v a = f a := updF_other f v hka
      have := ih hnd.2 hkt
      simp only [List.map_cons, List.sum_cons, ha]
      omega

/-- Row-occurrence counting commutes with a dict update of one member's
assignment list. -/
theorem count_comp_updF (assigns : String → List Nat) (k : String) (L : List Nat)
    (r : Nat) :
    (fun m => ((updF assigns k L) m).count r)
      = updF (fun m => (assigns m).count r) k (L.count r) := by
  funext m
  by_cases h : m = k <;> simp [updF, h]

/-- A stable descending sort of a nonempty list is nonempty, so its default
head is one of the sorted elements. -/
theorem insertionSort_headD_mem {α : Type} (r : α → α → Prop) [DecidableRel r]
    (l : List α) (d : α) (h : l ≠ []) :
    (List.insertionSort r l).headD d ∈ l := by
  have hperm := List.perm_insertionSort r l
  have hne : List.insertionSort r l ≠ [] := by
    intro hcon
    exact h (List.eq_nil_of_length_eq_zero (hcon ▸ hperm.length_eq).symm)
  exact hperm.mem_iff.mp (headD_mem_of_ne_nil d hne)

/-- The member named by the head of the sorted over/under pair list belongs
to `active` and satisfies the filtering predicate. -/
theorem sorted_pairs_headD_prop (active : List String) (f : String → Bool)
    (g : String → Nat)
    (h : (active.filter f).map (fun m => (m, g m)) ≠ []) :
    ((List.insertionSort (fun p q : String × Nat => q.2 ≤ p.2)
        ((active.filter f).map (fun m => (m, g m)))).headD ("", 0)).1 ∈ active ∧
    f (((List.insertionSort (fun p q : String × Nat => q.2 ≤ p.2)
        ((active.filter f).map (fun m => (m, g m)))).headD ("", 0)).1) = true := by
  have hmem := insertionSort_headD_mem (fun p q : String × Nat => q.2 ≤ p.2)
    ((active.filter f).map (fun m => (m, g m))) ("", 0) h
  rcases List.mem_map.mp hmem with ⟨m, hm, hme⟩
  rw [← hme]
  exact ⟨(List.mem_filter.mp hm).1, (List.mem_filter.mp hm).2⟩

/-- Shape of a successful rebalancing pass: it names an over-target member
`fromM` and an under-target member `toM`, pops the last row `r0` of `fromM`
and appends it to `toM`. -/
theorem rebalanceStep_some_shape (targets : String → Nat) (active : List String)
    (assigns : String → List Nat) (counts : String → Nat)
    (res : (String → List Nat) × (String → Nat))
    (h : rebalanceStep targets active assigns counts = some res) :
    ∃ fromM toM r0, fromM ∈ active ∧ toM ∈ active ∧
      targets fromM < counts fromM ∧ counts toM < targets toM ∧
      (assigns fromM).getLast? = some r0 ∧
      res = (updF (updF assigns fromM (assigns fromM).dropLast) toM
               ((updF assigns fromM (assigns fromM).dropLast) toM ++ [r0]),
             updF (updF counts fromM (counts fromM - 1)) toM
               ((updF counts fromM (counts fromM - 1)) toM + 1)) := by
  simp only [rebalanceStep] at h
  split_ifs at h with h1 h2
  rcases hL : (assigns ((List.insertionSort (fun p q : String × Nat => q.2 ≤ p.2)
      ((active.filter (fun m => targets m < counts m)).map
        (fun m => (m, counts m - targets m)))).headD ("", 0)).1).getLast? with _ | r0
  · rw [hL] at h
    cases h
  · rw [hL] at h
    push_neg at h1
    have hover := sorted_pairs_headD_prop active
      (fun m => targets m < counts m) (fun m => counts m - targets m) h1.1
    have hunder := sorted_pairs_headD_prop active
      (fun m => counts m < targets m) (fun m => targets m - counts m) h1.2
    refine ⟨_, _, r0, hover.1, hunder.1, by simpa using hover.2,
      by simpa using hunder.2, hL, ?_⟩
    cases h
    rfl

/-- A successful rebalancing pass preserves, for every row id, the total
number of its occurrences across the members' assignment lists, and
preserves the total of the members' counts. -/
theorem rebalanceStep_preserves (targets : String → Nat) (active : List String)
    (assigns : String → List Nat) (counts : String → Nat)
    (res : (String → List Nat) × (String → Nat))
    (hnd : active.Nodup)
    (h : rebalanceStep targets active assigns counts = some res) :
    (∀ r, (active.map (fun m => (res.1 m).count r)).sum
        = (active.map (fun m => (assigns m).count r)).sum) ∧
    (active.map res.2).sum = (active.map counts).sum := by
  rcases rebalanceStep_some_shape targets active assigns counts res h with
    ⟨fromM, toM, r0, hfa, hta, hfo, htu, hL, hres⟩
  have hft : fromM ≠ toM := by
    intro hcon
    rw [hcon] at hfo
    omega
  have hsplit : (assigns fromM).dropLast ++ [r0] = assigns fromM := by
    have hne : assigns fromM ≠ [] := by
      intro hcon
      rw [hcon] at hL
      cases hL
    have := List.dropLast_concat_getLast hne
    rwa [List.getLast_eq_iff_getLast?_eq_some hne |>.mpr hL] at this
  subst hres
  constructor
  · intro r
    have hcnt : List.count r (assigns fromM)
        = List.count r ((assigns fromM).dropLast) + List.count r [r0] := by
      conv_lhs => rw [← hsplit]
      rw [List.count_append]
    have e1 := count_comp_updF assigns fromM (assigns fromM).dropLast r
    have e2 := count_comp_updF (updF assigns fromM (assigns fromM).dropLast) toM
      ((updF assigns fromM (assigns fromM).dropLast) toM ++ [r0]) r
    have hV : List.count r ((updF assigns fromM (assigns fromM).dropLast) toM ++ [r0])
        = List.count r (assigns toM) + List.count r [r0] := by
      rw [updF_other assigns _ (Ne.symm hft), List.count_append]
    rw [e2, e1, hV]
    have s2 := sum_map_updF active
      (updF (fun m => List.count r (assigns m)) fromM
        (List.count r ((assigns fromM).dropLast)))
      toM (List.count r (assigns toM) + List.count r [r0]) hnd hta
    have s1 := sum_map_updF active (fun m => List.count r (assigns m)) fromM
      (List.count r ((assigns fromM).dropLast)) hnd hfa
    have hTv2 : updF (fun m => List.count r (assigns m)) fromM
        (List.count r ((assigns fromM).dropLast)) toM = List.count r (assigns toM) :=
      updF_other _ _ (Ne.symm hft)
    rw [hTv2] at s2
    simp only [] at s1
    omega
  · dsimp only
    have hTval : updF counts fromM (counts fromM - 1) toM = counts toM :=
      updF_other counts _ (Ne.symm hft)
    rw [hTval]
    have s2 := sum_map_updF active (updF counts fromM (counts fromM - 1)) toM
      (counts toM + 1) hnd hta
    have s1 := sum_map_updF active counts fromM (counts fromM - 1) hnd hfa
    rw [hTval] at s2
    omega

/-- The whole rebalancing loop preserves per-row occurrence totals and the
count total. -/
theorem rebalanceGo_preserves (targets : String → Nat) (active : List String)
    (hnd : active.Nodup) :
    ∀ (fuel : Nat) (assigns : String → List Nat) (counts : String → Nat),
    (∀ r, (active.map (fun m =>
        (((rebalanceGo targets active fuel assigns counts).1) m).count r)).sum
      = (active.map (fun m => (assigns m).count r)).sum) ∧
    (active.map (rebalanceGo targets active fuel assigns counts).2.1).sum
      = (active.map counts).sum := by
  intro fuel
  induction fuel with
  | zero => intro assigns counts; exact ⟨fun r => rfl, rfl⟩
  | succ n ih =>
    intro assigns counts
    rw [rebalanceGo]
    cases h : rebalanceStep targets active assigns counts with
    | none => exact ⟨fun r => rfl, rfl⟩
    | some p =>
      have hstep := rebalanceStep_preserves targets active assigns counts p hnd h
      have hrec := ih p.1 p.2
      refine ⟨fun r => ?_, ?_⟩
      · simpa using (hrec.1 r).trans (hstep.1 r)
      · simpa using hrec.2.trans hstep.2

/-- C8: the rebalancer only moves already-assigned rows between members —
for every row id, the total number of occurrences across all assignment
lists is unchanged (hence the multiset of assigned rows, their total count,
and the fact that a never-assigned row stays unassigned), and the engine's
backlog list reaches the output untouched by the rebalancing stage. -/
theorem c8_rebalancer_only_moves_items (targets : String → Nat)
    (active : List String) (assigns : String → List Nat) (counts : String → Nat)
    (hnd : active.Nodup) :
    (∀ r, (active.map (fun m =>
        (((rebalance_assignments targets active assigns counts).1) m).count r)).sum
      = (active.map (fun m => (assigns m).count r)).sum) ∧
    ((active.map (rebalance_assignments targets active assigns counts).2.1).sum
      = (active.map counts).sum) ∧
    (∀ (b2m : String → Option String) (limits : String → Nat) (tolerance : ℚ)
        (rebalanceEnabled : Bool) (blocks : List (String × List Nat)),
      (run_even b2m active limits targets tolerance rebalanceEnabled blocks).1.backlog
        = (evenLoop b2m active limits targets tolerance 20000 blocks initSt).backlog) := by
  refine ⟨(rebalanceGo_preserves targets active hnd 1000 assigns counts).1,
    (rebalanceGo_preserves targets active hnd 1000 assigns counts).2, ?_⟩
  intro b2m limits tolerance rebalanceEnabled blocks
  cases rebalanceEnabled <;> rfl

/-- Witness for C8 at a run that actually moves a row (8 moves from `A` to
`B`): the occurrence total of row 8 across `A` and `B` is preserved. -/
theorem c8_rebalancer_only_moves_items_witness :
    (["A", "B"] : List String).Nodup ∧
    ((["A", "B"].map (fun m =>
        (((rebalance_assignments tgtW ["A", "B"] asgW cntW).1) m).count 8)).sum
      = (["A", "B"].map (fun m => ((asgW m).count 8))).sum) :=
  ⟨by decide, (c8_rebalancer_only_moves_items tgtW ["A", "B"] asgW cntW (by decide)).1 8⟩

/-- The first-wins minimum fold picks an element of `e :: es` whose count is
minimal over `e :: es`. -/
theorem foldl_min_choice (counts : String → Nat) :
    ∀ (es : List String) (e : String),
    es.foldl (fun best m => if counts m < counts best then m else best) e ∈ e :: es ∧
    ∀ x ∈ e :: es,
      counts (es.foldl (fun best m => if counts m < counts best then m else best) e)
        ≤ counts x := by
  intro es
  induction es with
  | nil => intro e; exact ⟨List.mem_singleton_self e, by simp⟩
  | cons x es' ih =>
    intro e
    rw [List.foldl_cons]
    by_cases hx : counts x < counts e
    · rw [if_pos hx]
      rcases ih x with ⟨hmem, hbd⟩
      refine ⟨List.mem_cons_of_mem e (by simpa using hmem), ?_⟩
      intro y hy
      rcases List.mem_cons.mp hy with rfl | hy'
      · exact le_of_lt (lt_of_le_of_lt (hbd x (List.mem_cons_self x es')) hx)
      · exact hbd y hy'
    · rw [if_neg hx]
      rcases ih e with ⟨hmem, hbd⟩
      push_neg at hx
      constructor
      · rcases List.mem_cons.mp hmem with he | hes
        · rw [he]; exact List.mem_cons_self _ _
        · exact List.mem_cons_of_mem e (List.mem_cons_of_mem x hes)
      · intro y hy
        rcases List.mem_cons.mp hy with rfl | hy'
        · exact hbd y (List.mem_cons_self _ _)
        · rcases List.mem_cons.mp hy' with rfl | hy''
          · exact le_trans (hbd e (List.mem_cons_self _ _)) hx
          · exact hbd y (List.mem_cons_of_mem e hy'')

/-- The first-wins minimum fold picks the first minimum: everything before
it in `e :: es` has a strictly larger count. -/
theorem foldl_min_first (counts : String → Nat) :
    ∀ (es : List String) (e : String),
    ∃ l1 l2, e :: es
        = l1 ++ (es.foldl (fun best m => if counts m < counts best then m else best) e) :: l2 ∧
      ∀ x ∈ l1,
        counts (es.foldl (fun best m => if counts m < counts best then m else best) e)
          < counts x := by
  intro es
  induction es with
  | nil => intro e; exact ⟨[], [], rfl, by simp⟩
  | cons x es' ih =>
    intro e
    rw [List.foldl_cons]
    by_cases hx : counts x < counts e
    · rw [if_pos hx]
      rcases ih x with ⟨l1', l2', hdec, hgt⟩
      refine ⟨e :: l1', l2', by rw [List.cons_append, ← hdec], ?_⟩
      intro y hy
      rcases List.mem_cons.mp hy with rfl | hy'
      · exact lt_of_le_of_lt
          ((foldl_min_choice counts es' x).2 x (List.mem_cons_self x es')) hx
      · exact hgt y hy'
    · rw [if_neg hx]
      push_neg at hx
      rcases ih e with ⟨l1', l2', hdec, hgt⟩
      cases l1' with
      | nil =>
        have he : e = es'.foldl (fun best m => if counts m < counts best then m else best) e := by
          simpa using congrArg (fun l => l.headD "") hdec
        refine ⟨[], x :: l2', ?_, by simp⟩
        have ht : es' = l2' := by simpa using congrArg List.tail hdec
        rw [List.nil_append, ← he, ht]
      | cons a l1'' =>
        have ha : e = a := by simpa using congrArg (fun l => l.headD "") hdec
        have ht : es' = l1''
            ++ (es'.foldl (fun best m => if counts m < counts best then m else best) e) :: l2' := by
          simpa using congrArg List.tail hdec
        refine ⟨e :: x :: l1'', l2', by rw [List.cons_append, List.cons_append, ← ht], ?_⟩
        intro y hy
        have hre : counts (es'.foldl (fun best m => if counts m < counts best then m else best) e)
            < counts e := ha ▸ hgt a (List.mem_cons_self a l1'')
        rcases List.mem_cons.mp hy with rfl | hy'
        · exact hre
        · rcases List.mem_cons.mp hy' with rfl | hy''
          · exact lt_of_lt_of_le hre hx
          · exact hgt y (List.mem_cons_of_mem a hy'')

/-- C9 (spec-modelled): a priority-override item is placed on the eligible
worker (count strictly below capacity) with the fewest current items, the
first such worker in the fixed order on ties; when no worker is eligible the
result is `none` — the item goes to Backlog and, the placement function
being total, no exception is raised. -/
theorem c9_priority_override_placement (active : List String)
    (limits counts : String → Nat) :
    (place_priority_item active limits counts = none ↔
      ∀ m ∈ active, limits m ≤ counts m) ∧
    (∀ w, place_priority_item active limits counts = some w →
      w ∈ active ∧ counts w < limits w ∧
      (∀ m ∈ active, counts m < limits m → counts w ≤ counts m) ∧
      ∃ l1 l2, eligible_members active limits counts = l1 ++ w :: l2 ∧
        ∀ x ∈ l1, counts w < counts x) ∧
    (∀ (r : Nat) (rest : List Nat) (st : St),
      place_priority_item active limits st.counts = none →
      place_priority_items active limits (r :: rest) st =
        place_priority_items active limits rest
          { st with backlog := st.backlog ++ [r] }) := by
  refine ⟨?_, ?_, ?_⟩
  · unfold place_priority_item
    cases he : eligible_members active limits counts with
    | nil =>
      simp only [true_iff]
      intro m hm
      by_contra hcon
      push_neg at hcon
      have : m ∈ eligible_members active limits counts :=
        List.mem_filter.mpr ⟨hm, by simpa using hcon⟩
      rw [he] at this
      cases this
    | cons e es =>
      simp only [reduceCtorEq, false_iff]
      push_neg
      have : e ∈ eligible_members active limits counts := he ▸ List.mem_cons_self e es
      rcases List.mem_filter.mp this with ⟨hea, hel⟩
      exact ⟨e, hea, by simpa using hel⟩
  · intro w hw
    unfold place_priority_item at hw
    cases he : eligible_members active limits counts with
    | nil => rw [he] at hw; cases hw
    | cons e es =>
      rw [he] at hw
      have hwv := Option.some_injective _ hw
      have hch := foldl_min_choice counts es e
      have hmemElig : w ∈ eligible_members active limits counts := by
        rw [he, ← hwv]; exact hch.1
      rcases List.mem_filter.mp hmemElig with ⟨hwa, hwl⟩
      refine ⟨hwa, by simpa using hwl, ?_, ?_⟩
      · intro m hm hml
        have hmElig : m ∈ eligible_members active limits counts :=
          List.mem_filter.mpr ⟨hm, by simpa using hml⟩
        rw [he] at hmElig
        exact hwv ▸ hch.2 m hmElig
      · rcases foldl_min_first counts es e with ⟨l1, l2, hdec, hgt⟩
        exact ⟨l1, l2, by rw [hdec, hwv], fun x hx => hwv ▸ hgt x hx⟩
  · intro r rest st h
    rw [place_priority_items, h]

/-- Witness for C9: with `A` at its limit and `B` free, the priority item
goes to `B`, the eligible worker with the fewest items. -/
theorem c9_priority_override_placement_witness :
    "B" ∈ ["A", "B"] ∧ cnt9 "B" < limits_A1B1 "B" ∧
    (∀ m ∈ ["A", "B"], cnt9 m < limits_A1B1 m → cnt9 "B" ≤ cnt9 m) ∧
    ∃ l1 l2, eligible_members ["A", "B"] limits_A1B1 cnt9 = l1 ++ "B" :: l2 ∧
      ∀ x ∈ l1, cnt9 "B" < cnt9 x :=
  (c9_priority_override_placement ["A", "B"] limits_A1B1 cnt9).2.1 "B" (by decide)

/-- `foldr max 0` is below `n` exactly when every element is. -/
theorem foldr_max_le_iff (l : List Nat) (n : Nat) :
    l.foldr max 0 ≤ n ↔ ∀ x ∈ l, x ≤ n := by
  induction l with
  | nil => simp
  | cons a t ih => simp [Nat.max_le, ih]

/-- Every element is below `foldr max 0`. -/
theorem le_foldr_max (l : List Nat) (x : Nat) (hx : x ∈ l) : x ≤ l.foldr max 0 :=
  (foldr_max_le_iff l (l.foldr max 0)).mp le_rfl x hx

/-- `foldr max 0` only depends on the multiset of elements. -/
theorem foldr_max_perm {l l' : List Nat} (h : l.Perm l') :
    l.foldr max 0 = l'.foldr max 0 :=
  le_antisymm
    ((foldr_max_le_iff l _).mpr fun x hx => le_foldr_max l' x (h.mem_iff.mp hx))
    ((foldr_max_le_iff l' _).mpr fun x hx => le_foldr_max l x (h.symm.mem_iff.mp hx))

/-- The head of a descending-sorted list is its maximum. -/
theorem sorted_desc_foldr_max (x : Nat) (xs : List Nat)
    (h : List.Sorted (fun a b => b ≤ a) (x :: xs)) :
    (x :: xs).foldr max 0 = x := by
  have hall : ∀ b ∈ xs, b ≤ x := List.rel_of_sorted_cons h
  have : xs.foldr max 0 ≤ x := (foldr_max_le_iff xs x).mpr hall
  simpa [List.foldr_cons] using Nat.max_eq_left this

/-- `top_and_second` of the descending sort computes the spec-side maximum
and the spec-side maximum-after-removing-one-top. -/
theorem top_and_second_sort (l : List Nat) (hl : l ≠ []) :
    top_and_second (List.insertionSort (fun a b => b ≤ a) l)
      = (specTop l, specSecond l) := by
  have hperm := List.perm_insertionSort (fun a b : Nat => b ≤ a) l
  have hsorted := List.sorted_insertionSort (fun a b : Nat => b ≤ a) l
  rcases hs : List.insertionSort (fun a b : Nat => b ≤ a) l with _ | ⟨a, _ | ⟨b, t⟩⟩
  · rw [hs] at hperm
    exact absurd hperm.symm.eq_nil hl
  · rw [hs] at hperm hsorted
    have htop : specTop l = a := by
      rw [specTop, ← foldr_max_perm hperm]
      exact sorted_desc_foldr_max a [] hsorted
    have hsec : specSecond l = 0 := by
      rw [specSecond, htop]
      have herase : l.erase a = [] := by
        have h2 := hperm.symm.erase a
        simp only [List.erase_cons_head] at h2
        exact h2.eq_nil
      rw [herase]
      rfl
    rw [top_and_second, htop, hsec]
  · rw [hs] at hperm hsorted
    have htop : specTop l = a := by
      rw [specTop, ← foldr_max_perm hperm]
      exact sorted_desc_foldr_max a (b :: t) hsorted
    have hsec : specSecond l = b := by
      rw [specSecond, htop]
      have herase : (l.erase a).Perm (b :: t) := by
        simpa [List.erase_cons_head] using hperm.symm.erase a
      rw [foldr_max_perm herase]
      exact sorted_desc_foldr_max b t hsorted.of_cons
    rw [top_and_second, htop, hsec]

/-- C6: the Brand Priority imbalance test is exactly the spec's rule — the
code's branch on the two highest loads of the simulated assignment rejects
whole placement precisely when the highest load exceeds `ratio` times the
second-highest, or when the placement would make the candidate the sole
worker with a nonzero load. -/
theorem c6_imbalance_check_matches_spec (active : List String)
    (counts : String → Nat) (candidate : String) (blockSize : Nat) (ratio : ℚ)
    (hnd : active.Nodup) (hc : candidate ∈ active) (hsize : 0 < blockSize) :
    (would_imbalance active counts candidate blockSize ratio = true ↔
      spec_reject_whole active counts candidate blockSize ratio) := by
  have hLne : active.map (updF counts candidate (counts candidate + blockSize)) ≠ [] := by
    intro hcon
    rw [List.map_eq_nil_iff] at hcon
    rw [hcon] at hc
    cases hc
  have hts := top_and_second_sort
    (active.map (updF counts candidate (counts candidate + blockSize))) hLne
  have hcand0 : 0 < updF counts candidate (counts candidate + blockSize) candidate := by
    rw [updF_same]
    omega
  have hcandL : updF counts candidate (counts candidate + blockSize) candidate
      ∈ active.map (updF counts candidate (counts candidate + blockSize)) :=
    List.mem_map_of_mem _ hc
  unfold would_imbalance compute_loads_after_assignment
  dsimp only
  rw [hts]
  unfold spec_reject_whole simulatedCounts
  simp only []
  by_cases h2 : specSecond
      (active.map (updF counts candidate (counts candidate + blockSize))) = 0
  · rw [if_pos h2, h2]
    rw [decide_eq_true_iff]
    constructor
    · intro htop
      refine Or.inl ?_
      rw [Nat.cast_zero, mul_zero]
      exact_mod_cast htop
    · rintro (hlt | ⟨hne, _⟩)
      · rw [Nat.cast_zero, mul_zero] at hlt
        exact_mod_cast hlt
      · calc 0 < updF counts candidate (counts candidate + blockSize) candidate := hcand0
          _ ≤ _ := le_foldr_max _ _ hcandL
  · rw [if_neg h2]
    rw [decide_eq_true_iff]
    constructor
    · exact Or.inl
    · rintro (hlt | ⟨hne, hzero⟩)
      · exact hlt
      · exfalso
        apply h2
        have hpe : active.Perm (candidate :: active.erase candidate) :=
          List.perm_cons_erase hc
        have hLperm : (active.map (updF counts candidate (counts candidate + blockSize))).Perm
            (updF counts candidate (counts candidate + blockSize) candidate ::
              (active.erase candidate).map
                (updF counts candidate (counts candidate + blockSize))) := by
          simpa using hpe.map (updF counts candidate (counts candidate + blockSize))
        have hzl : ∀ x ∈ (active.erase candidate).map
            (updF counts candidate (counts candidate + blockSize)), x = 0 := by
          intro x hx
          rcases List.mem_map.mp hx with ⟨m, hm, hme⟩
          have hmc : m ≠ candidate := ((List.Nodup.mem_erase_iff hnd).mp hm).1
          have hma : m ∈ active := List.mem_of_mem_erase hm
          rw [← hme, updF_other counts _ hmc]
          have := hzero m hma hmc
          rwa [updF_other counts _ hmc] at this
        have hzfold : ((active.erase candidate).map
            (updF counts candidate (counts candidate + blockSize))).foldr max 0 = 0 :=
          Nat.le_zero.mp ((foldr_max_le_iff _ 0).mpr fun x hx => Nat.le_zero.mpr (hzl x hx))
        have htop : specTop (active.map (updF counts candidate (counts candidate + blockSize)))
            = updF counts candidate (counts candidate + blockSize) candidate := by
          rw [specTop, foldr_max_perm hLperm, List.foldr_cons, hzfold]
          exact Nat.max_eq_left (Nat.zero_le _)
        rw [specSecond, htop]
        have herase : ((active.map (updF counts candidate (counts candidate + blockSize))).erase
            (updF counts candidate (counts candidate + blockSize) candidate)).Perm
            ((active.erase candidate).map (updF counts candidate (counts candidate + blockSize))) := by
          have := hLperm.erase (updF counts candidate (counts candidate + blockSize) candidate)
          simpa [List.erase_cons_head] using this
        rw [foldr_max_perm herase]
        exact hzfold

/-- Witness for C6 at a concrete input: two members with empty counts, a
block of 3 simulated on `"A"` — the code rejects whole placement and the
spec condition holds (the placement would make `A` the sole loaded worker). -/
theorem c6_imbalance_check_matches_spec_witness :
    would_imbalance ["A", "B"] (fun _ => 0) "A" 3 (13/10) = true ↔
      spec_reject_whole ["A", "B"] (fun _ => 0) "A" 3 (13/10) :=
  c6_imbalance_check_matches_spec ["A", "B"] (fun _ => 0) "A" 3 (13/10)
    (by decide) (by decide) (by decide)

end QAPull
